import Mathlib

/-!
Verification of the distributed non-periodic tridiagonal solver in
src/code/lanl-implementation/npts.c.

The embedding models the double-precision arithmetic of the C code in exact
rational arithmetic (ℚ).  Per-worker arrays become functions of the local
index; arrays that are filled by a loop `a[i] = f(a[i-1])` become structural
recursions whose step is the loop body.  The MPI collectives are modelled by
their data-flow: an all-gather of a scalar becomes the rank-indexed function
of the gathered values, a broadcast becomes the broadcast value itself, and
the pipelined point-to-point hand-off in `precompute_beta_gam` becomes a
recursion over ranks whose step consumes the previous rank's last value.
-/

namespace NPTS

/-! ## Coefficient pipeline (`precompute_beta_gam`, npts.c lines 176-210) -/

/-- One step of the diagonal-normalisation recurrence,
`beta_local[i] = 1./(1. - (1./3)*beta_local[i-1]*(1./3))` (npts.c lines 196, 201). -/
def betaStep (b : ℚ) : ℚ := 1 / (1 - (1/3) * b * (1/3))

/-- Iterates of `betaStep` starting from a seed value; `betaIter b i` is the
content of `beta_local[i]` on a rank whose `beta_local[0]` is `b`. -/
def betaIter (b : ℚ) : ℕ → ℚ
  | 0 => b
  | i + 1 => betaStep (betaIter b i)

/-- The value `beta_local[0]` of each rank, with local block size `m`.
Rank 0 seeds with `1.0` (line 191); rank `k+1` receives `last_beta`, the value
`beta_local[m-1]` of rank `k` (lines 195-196, 206), and seeds with
`1./(1. - (1./3)*last_beta*(1./3))`. -/
def rankSeed (m : ℕ) : ℕ → ℚ
  | 0 => 1
  | k + 1 => betaStep (betaIter (rankSeed m k) (m - 1))

/-- The array `beta_local` of rank `k` after `precompute_beta_gam`
(block size `m`). -/
def beta_local (m k i : ℕ) : ℚ := betaIter (rankSeed m k) i

/-- The array `gam_local` of rank `k` after `precompute_beta_gam`: rank 0 has
`gam_local[0] = 0.0` (line 192), rank `k+1` has `gam_local[0] = last_beta*(1./3)`
(line 197), and every rank has `gam_local[i] = beta_local[i-1]*(1./3)` for
`i ≥ 1` (line 202). -/
def gam_local (m : ℕ) : ℕ → ℕ → ℚ
  | 0, 0 => 0
  | k + 1, 0 => betaIter (rankSeed m k) (m - 1) * (1/3)
  | k, i + 1 => betaIter (rankSeed m k) i * (1/3)

/-! ## Forward (L-R) sweep of `nonperiodic_tridiagonal_solver` (lines 47-97) -/

/-- Contents of `phi_local` after the L-R sweep on rank `k` (lines 47-60):
rank 0 seeds `phi_local[0] = 0.0`, other ranks seed
`phi_local[0] = beta_local[0]*r_local[0]`, and the loop fills
`phi_local[i] = beta_local[i]*(r_local[i] - (1./3)*phi_local[i-1])`. -/
def phiF (betaL rL : ℕ → ℕ → ℚ) (k : ℕ) : ℕ → ℚ
  | 0 => if k = 0 then 0 else betaL k 0 * rL k 0
  | i + 1 => betaL k (i + 1) * (rL k (i + 1) - (1/3) * phiF betaL rL k i)

/-- Contents of `psi_local` after the L-R sweep on rank `k` (lines 47-60):
rank 0 seeds `psi_local[0] = 1.0`, other ranks seed
`psi_local[0] = -(1./3)*beta_local[0]`, and the loop fills
`psi_local[i] = -(1./3)*beta_local[i]*psi_local[i-1]`. -/
def psiF (betaL : ℕ → ℕ → ℚ) (k : ℕ) : ℕ → ℚ
  | 0 => if k = 0 then 1 else -(1/3) * betaL k 0
  | i + 1 => -(1/3) * betaL k (i + 1) * psiF betaL k i

/-- The gathered vector `phi_lasts` (lines 64-65): each rank's
`phi_local[local_size-1]`. -/
def phiLasts (m : ℕ) (betaL rL : ℕ → ℕ → ℚ) (k : ℕ) : ℚ := phiF betaL rL k (m - 1)

/-- The gathered vector `psi_lasts` (lines 67-68): each rank's
`psi_local[local_size-1]`. -/
def psiLasts (m : ℕ) (betaL : ℕ → ℕ → ℚ) (k : ℕ) : ℚ := psiF betaL k (m - 1)

/-- The broadcast scalar `u_first` (lines 70-77): rank 0's
`u_local[0] = beta_local[0]*r_local[0]`. -/
def uFirst (betaL rL : ℕ → ℕ → ℚ) : ℚ := betaL 0 0 * rL 0 0

/-- Value of an accumulator loop `for (j = lo; j < lo+n; j++) product *= f(j);`
starting from `1.0` (lines 83-86, 141-144, 148-151). -/
def prodLoop (f : ℕ → ℚ) (lo : ℕ) : ℕ → ℚ
  | 0 => 1
  | n + 1 => prodLoop f lo n * f (lo + n)

/-- Partial sums of the `u_tilda` accumulation loop on a rank `k ≠ 0`
(lines 82-89): after `n` iterations, `u_tilda` holds
`Σ_{i<n} phi_lasts[i] * Π_{j=i+1}^{k-1} psi_lasts[j]`. -/
def uTildaSum (f g : ℕ → ℚ) (k : ℕ) : ℕ → ℚ
  | 0 => 0
  | n + 1 => uTildaSum f g k n + f n * prodLoop g (n + 1) (k - (n + 1))

/-- The value `u_tilda` computed by the FORWARD_RESOLVE loop nest of a rank
`k ≠ 0` (lines 79-91), for gathered vectors `f = phi_lasts`, `g = psi_lasts`
and anchor `a = u_first`: the loop of line 82 runs `k` times and the final
line 90 adds `u_first*product_2` with `product_2 = Π_{i<k} psi_lasts[i]`. -/
def uTildaCode (f g : ℕ → ℚ) (a : ℚ) (k : ℕ) : ℚ :=
  uTildaSum f g k k + a * prodLoop g 0 k

/-- The coupling scalar `u_tilda` of rank `k`: rank 0 sets it directly to
`u_local[0] = beta_local[0]*r_local[0]` (line 73), other ranks run the
FORWARD_RESOLVE loops (lines 79-91). -/
def uTilda (m : ℕ) (betaL rL : ℕ → ℕ → ℚ) (k : ℕ) : ℚ :=
  if k = 0 then uFirst betaL rL
  else uTildaCode (phiLasts m betaL rL) (psiLasts m betaL) (uFirst betaL rL) k

/-- Contents of `u_local` after the FORWARD_COMBINE loop (lines 95-97):
`u_local[i] = phi_local[i] + u_tilda*psi_local[i]`. -/
def uLocal (m : ℕ) (betaL rL : ℕ → ℕ → ℚ) (k i : ℕ) : ℚ :=
  phiF betaL rL k i + uTilda m betaL rL k * psiF betaL k i

/-! ## Backward (R-L) sweep (lines 105-161) -/

/-- The gathered vector `gam_firsts` (lines 105-106): each rank's
`gam_local[0]`. -/
def gamFirsts (gamL : ℕ → ℕ → ℚ) (k : ℕ) : ℚ := gamL k 0

/-- Contents of `phi_local` after the R-L sweep on rank `k`, indexed by the
distance `d` from the top: `phiB P m betaL gamL rL k d` is
`phi_local[local_size-1-d]`.  The last rank seeds `phi_local[m-1] = 0.0`
(line 109), other ranks seed `phi_local[m-1] = u_local[m-1]` (line 114), and
the loop fills `phi_local[i] = u_local[i] - gam_local[i+1]*phi_local[i+1]`
downward (lines 118-120). -/
def phiB (P m : ℕ) (betaL gamL rL : ℕ → ℕ → ℚ) (k : ℕ) : ℕ → ℚ
  | 0 => if k = P - 1 then 0 else uLocal m betaL rL k (m - 1)
  | d + 1 => uLocal m betaL rL k (m - 1 - (d + 1)) -
      gamL k (m - (d + 1)) * phiB P m betaL gamL rL k d

/-- Contents of `psi_local` after the R-L sweep on rank `k`, indexed by the
distance `d` from the top.  The last rank seeds `psi_local[m-1] = 1.0`
(line 110), other ranks seed `psi_local[m-1] = -gam_firsts[rank+1]`
(line 115), and the loop fills `psi_local[i] = -gam_local[i+1]*psi_local[i+1]`
downward (line 121). -/
def psiB (P m : ℕ) (gamL : ℕ → ℕ → ℚ) (k : ℕ) : ℕ → ℚ
  | 0 => if k = P - 1 then 1 else -gamFirsts gamL (k + 1)
  | d + 1 => -gamL k (m - (d + 1)) * psiB P m gamL k d

/-- The gathered vector `phi_firsts` (line 126): each rank's `phi_local[0]`
after the R-L sweep. -/
def phiFirsts (P m : ℕ) (betaL gamL rL : ℕ → ℕ → ℚ) (k : ℕ) : ℚ :=
  phiB P m betaL gamL rL k (m - 1)

/-- The gathered vector `psi_firsts` (line 127): each rank's `psi_local[0]`
after the R-L sweep. -/
def psiFirsts (P m : ℕ) (gamL : ℕ → ℕ → ℚ) (k : ℕ) : ℚ := psiB P m gamL k (m - 1)

/-- The broadcast scalar `x_last` (lines 129-136): the last rank's
`x_local[local_size-1] = u_local[local_size-1]`. -/
def xLast (P m : ℕ) (betaL rL : ℕ → ℕ → ℚ) : ℚ := uLocal m betaL rL (P - 1) (m - 1)

/-- Partial sums of the `x_tilda` accumulation loop on a rank `k ≠ P-1`
(lines 140-146): the iteration variable runs `i = k+2, k+3, ...`, and the
term of iteration number `n` is `phi_firsts[k+2+n] * Π_{j=k+1}^{k+1+n} psi_firsts[j]`. -/
def xTildaSum (f g : ℕ → ℚ) (k : ℕ) : ℕ → ℚ
  | 0 => 0
  | n + 1 => xTildaSum f g k n + f (k + 2 + n) * prodLoop g (k + 1) (n + 1)

/-- The value `x_tilda` computed by the BACKWARD_RESOLVE loops of a rank
`k ≠ P-1` (lines 138-154): the loop of line 140 runs for `i` in `[k+2, P)`,
then line 153 adds `phi_firsts[k+1] + x_last*product_2` with
`product_2 = Π_{i=k+1}^{P-1} psi_firsts[i]` (lines 148-151). -/
def xTildaCode (f g : ℕ → ℚ) (xl : ℚ) (P k : ℕ) : ℚ :=
  xTildaSum f g k (P - (k + 2)) + f (k + 1) + xl * prodLoop g (k + 1) (P - (k + 1))

/-- The coupling scalar `x_tilda` of rank `k`: the last rank sets it directly
to `x_local[m-1] = u_local[m-1]` (line 132), other ranks run the
BACKWARD_RESOLVE loops (lines 138-154). -/
def xTilda (P m : ℕ) (betaL gamL rL : ℕ → ℕ → ℚ) (k : ℕ) : ℚ :=
  if k = P - 1 then xLast P m betaL rL
  else xTildaCode (phiFirsts P m betaL gamL rL) (psiFirsts P m gamL)
    (xLast P m betaL rL) P k

/-- Contents of `x_local` after the BACKWARD_COMBINE loop (lines 158-161):
`x_local[i] = phi_local[i] + x_tilda*psi_local[i]` with the R-L-sweep
`phi_local`/`psi_local`.  The local index `i` sits at distance `m-1-i` from
the top of the block. -/
def xLocal (P m : ℕ) (betaL gamL rL : ℕ → ℕ → ℚ) (k i : ℕ) : ℚ :=
  phiB P m betaL gamL rL k (m - 1 - i) +
    xTilda P m betaL gamL rL k * psiB P m gamL k (m - 1 - i)

/-- The full solver entry point (npts.c lines 8-173).  `P` is the worker
count (`nprocs`), `N` is `system_size`, and `xPrior` is the content of the
output buffer `x_local` before the call.  When `system_size` is not a
multiple of `nprocs` the function returns before writing anything (lines
27-30), so the buffer keeps its prior contents; otherwise every entry of
`x_local` is overwritten by the BACKWARD_COMBINE loop. -/
def nonperiodic_tridiagonal_solver (P N : ℕ) (betaL gamL rL xPrior : ℕ → ℕ → ℚ)
    (k i : ℕ) : ℚ :=
  if N % P ≠ 0 then xPrior k i
  else xLocal P (N / P) betaL gamL rL k i

/-! ## Spec-side definitions

`betaSeq`/`gamSeq` are the global scalar recurrence the spec (§4.1) describes:
seeded by `beta[0] = 1, gam[0] = 0`, with
`beta[i] = 1/(1 - (1/3)·beta[i-1]·(1/3))` and `gam[i] = beta[i-1]·(1/3)`.
`uRec` is the reduced recurrence of spec §4.3 (FORWARD_RESOLVE).
`cprime`/`dprime`/`thomasX` are the textbook sequential Thomas algorithm for
the `N×N` tridiagonal system with unit diagonal and constant off-diagonal
weight `1/3`, which spec §8 names as the reference the solver must match. -/

/-- Global recurrence for `beta` as the spec states it. -/
def betaSeq : ℕ → ℚ
  | 0 => 1
  | i + 1 => 1 / (1 - (1/3) * betaSeq i * (1/3))

/-- Global recurrence for `gam` as the spec states it. -/
def gamSeq : ℕ → ℚ
  | 0 => 0
  | i + 1 => betaSeq i * (1/3)

/-- The size-P reduced recurrence of spec §4.2 FORWARD_RESOLVE:
`u_0 = u_first`, `u_j = phi_lasts[j-1] + psi_lasts[j-1]·u_{j-1}`. -/
def uRec (f g : ℕ → ℚ) (a : ℚ) : ℕ → ℚ
  | 0 => a
  | k + 1 => f k + g k * uRec f g a k

/-- Thomas algorithm, forward-eliminated superdiagonal `c'` for the system
with diagonal `1` and off-diagonals `1/3`. -/
def cprime : ℕ → ℚ
  | 0 => 1/3
  | i + 1 => (1/3) / (1 - (1/3) * cprime i)

/-- Thomas algorithm, forward-eliminated right-hand side `d'`. -/
def dprime (r : ℕ → ℚ) : ℕ → ℚ
  | 0 => r 0
  | i + 1 => (r (i + 1) - (1/3) * dprime r i) / (1 - (1/3) * cprime i)

/-- Thomas back-substitution indexed by the distance `d` from the top:
`thomasXAux r N d` is the solution entry `x[N-1-d]`. -/
def thomasXAux (r : ℕ → ℚ) (N : ℕ) : ℕ → ℚ
  | 0 => dprime r (N - 1)
  | d + 1 => dprime r (N - 1 - (d + 1)) - cprime (N - 1 - (d + 1)) * thomasXAux r N d

/-- Solution of the full `N×N` system by the sequential Thomas algorithm. -/
def thomasX (r : ℕ → ℚ) (N i : ℕ) : ℚ := thomasXAux r N (N - 1 - i)

/-- Block decomposition of a global vector: rank `k` of block size `m` owns
entries `k*m, ..., k*m + (m-1)`. -/
def localBlock (m : ℕ) (f : ℕ → ℚ) (k i : ℕ) : ℚ := f (k * m + i)

/-- Sequential forward elimination over global vectors `B` (beta) and `R`
(right-hand side): `u_0 = B_0·R_0`, `u_i = B_i·(R_i - (1/3)·u_{i-1})`.
Proof-internal reference used to relate the distributed sweeps to the
sequential Thomas algorithm. -/
def seqU (B R : ℕ → ℚ) : ℕ → ℚ
  | 0 => B 0 * R 0
  | i + 1 => B (i + 1) * (R (i + 1) - (1/3) * seqU B R i)

/-- Sequential backward substitution over global vectors, indexed by the
distance `d` from the top: `seqXAux B G R N d` is the solution entry
`x[N-1-d]` of the sequential elimination, where `x[N-1] = u[N-1]` and
`x[i] = u[i] - G_{i+1}·x[i+1]`. -/
def seqXAux (B G R : ℕ → ℚ) (N : ℕ) : ℕ → ℚ
  | 0 => seqU B R (N - 1)
  | d + 1 => seqU B R (N - 1 - (d + 1)) - G (N - (d + 1)) * seqXAux B G R N d

/-- Closed form of the mirrored reduced recurrence walked from the right
edge: `closedB f g xl P j` unrolls `t_j = f_j + g_j·t_{j+1}` from
`t_P = xl`. -/
def closedB (f g : ℕ → ℚ) (xl : ℚ) (P j : ℕ) : ℚ :=
  (Finset.Ico j P).sum (fun i => f i * (Finset.Ico j i).prod g) +
    xl * (Finset.Ico j P).prod g

/-! ## The pipeline reproduces the global recurrence -/

lemma betaIter_betaSeq (j : ℕ) : ∀ i, betaIter (betaSeq j) i = betaSeq (j + i)
  | 0 => rfl
  | i + 1 => by
    rw [show j + (i + 1) = (j + i) + 1 by omega, betaIter, betaIter_betaSeq j i]
    simp [betaStep, betaSeq]

lemma rankSeed_eq (m : ℕ) (hm : 1 ≤ m) : ∀ k, rankSeed m k = betaSeq (k * m)
  | 0 => by rw [Nat.zero_mul]; rfl
  | k + 1 => by
    rw [rankSeed, rankSeed_eq m hm k, betaIter_betaSeq]
    rw [show k * m + (m - 1) = (k + 1) * m - 1 by rw [Nat.succ_mul]; omega]
    have h1 : 1 ≤ (k + 1) * m := Nat.mul_pos (Nat.succ_pos k) hm
    rw [show (k + 1) * m = ((k + 1) * m - 1) + 1 by omega]
    simp [betaStep, betaSeq]

lemma beta_local_eq (m : ℕ) (hm : 1 ≤ m) (k i : ℕ) :
    beta_local m k i = betaSeq (k * m + i) := by
  rw [beta_local, rankSeed_eq m hm, betaIter_betaSeq]

lemma gam_local_eq (m : ℕ) (hm : 1 ≤ m) : ∀ k i, gam_local m k i = gamSeq (k * m + i)
  | 0, 0 => by simp [gam_local, gamSeq]
  | k + 1, 0 => by
    have h1 : 1 ≤ (k + 1) * m := Nat.mul_pos (Nat.succ_pos k) hm
    rw [show (k + 1) * m + 0 = (k * m + (m - 1)) + 1 by rw [Nat.succ_mul]; omega]
    simp only [gam_local, gamSeq, rankSeed_eq m hm, betaIter_betaSeq]
  | k, i + 1 => by
    rw [show k * m + (i + 1) = (k * m + i) + 1 by omega]
    simp only [gam_local, gamSeq, rankSeed_eq m hm, betaIter_betaSeq]

lemma beta_local_block (m : ℕ) (hm : 1 ≤ m) :
    beta_local m = localBlock m betaSeq := by
  funext k i; rw [beta_local_eq m hm, localBlock]

lemma gam_local_block (m : ℕ) (hm : 1 ≤ m) :
    gam_local m = localBlock m gamSeq := by
  funext k i; rw [gam_local_eq m hm, localBlock]

/-- Claim C2: for every system size `N = P*m` divisible by the worker count
`P`, after `precompute_beta_gam` completes on all ranks, the concatenation of
all workers' `beta_local` and `gam_local` arrays equals the sequence defined
by the global scalar recurrence `beta[0] = 1`, `gam[0] = 0`,
`beta[i] = 1/(1 - (1/3)·beta[i-1]·(1/3))`, `gam[i] = beta[i-1]·(1/3)`: the
rank-by-rank hand-off of `last_beta` reproduces exactly this single
sequential recurrence. -/
theorem precompute_concat_eq_global (P m : ℕ) (hm : 1 ≤ m) :
    ((List.range P).map (fun k =>
        (List.range m).map (fun i => (beta_local m k i, gam_local m k i)))).flatten
      = (List.range (P * m)).map (fun i => (betaSeq i, gamSeq i)) := by
  induction P with
  | zero => simp
  | succ P ih =>
    rw [List.range_succ, List.map_append, List.flatten_append, ih,
      show (P + 1) * m = P * m + m by ring, List.range_add, List.map_append]
    simp only [List.map_map, List.map_cons, List.map_nil, List.flatten_cons,
      List.flatten_nil, List.append_nil]
    congr 1
    apply List.map_congr_left
    intro i _
    simp only [Function.comp_apply, beta_local_eq m hm, gam_local_eq m hm]

/-- Witness for C2 at `P = 2`, `m = 2`. -/
theorem precompute_concat_eq_global_witness :
    ((List.range 2).map (fun k =>
        (List.range 2).map (fun i => (beta_local 2 k i, gam_local 2 k i)))).flatten
      = (List.range (2 * 2)).map (fun i => (betaSeq i, gamSeq i)) :=
  precompute_concat_eq_global 2 2 (by norm_num)

/-! ## Bounds on the `beta` sequence (no division by zero) -/

lemma sqrt5_sq : Real.sqrt 5 ^ 2 = 5 := Real.sq_sqrt (by norm_num)

lemma sqrt5_lt : (2 : ℝ) < Real.sqrt 5 ∧ Real.sqrt 5 < 9/4 := by
  constructor
  · nlinarith [sqrt5_sq, Real.sqrt_nonneg 5]
  · nlinarith [sqrt5_sq, Real.sqrt_nonneg 5]

lemma betaSeq_mem : ∀ n, 1 ≤ ((betaSeq n : ℚ) : ℝ) ∧
    ((betaSeq n : ℚ) : ℝ) < (9 - 3 * Real.sqrt 5) / 2
  | 0 => by
    norm_num [betaSeq]
    nlinarith [sqrt5_lt.2]
  | n + 1 => by
    obtain ⟨h1, h2⟩ := betaSeq_mem n
    have hs2 := sqrt5_sq
    have hs := sqrt5_lt
    have hL2 : ((9 - 3 * Real.sqrt 5) / 2) ^ 2 = 9 * ((9 - 3 * Real.sqrt 5) / 2) - 9 := by
      linear_combination (9/4 : ℝ) * hs2
    have hden : (0 : ℝ) < 1 - 1/3 * (betaSeq n : ℝ) * (1/3) := by nlinarith
    have hcast : ((betaSeq (n + 1) : ℚ) : ℝ)
        = 1 / (1 - 1/3 * ((betaSeq n : ℚ) : ℝ) * (1/3)) := by
      rw [show betaSeq (n + 1) = 1 / (1 - 1/3 * betaSeq n * (1/3)) from rfl]
      push_cast
      ring
    constructor
    · rw [hcast, le_div_iff₀ hden]; nlinarith
    · rw [hcast, div_lt_iff₀ hden]; nlinarith

lemma betaSeq_den_pos (n : ℕ) : (0 : ℚ) < 1 - 1/3 * betaSeq n * (1/3) := by
  have h2 := (betaSeq_mem n).2
  have hs := sqrt5_lt
  have : ((betaSeq n : ℚ) : ℝ) < 9 := by nlinarith [Real.sqrt_nonneg 5]
  have h9 : betaSeq n < 9 := by exact_mod_cast this
  have h1 : (1 : ℚ) ≤ betaSeq n := by exact_mod_cast (betaSeq_mem n).1
  nlinarith

lemma betaSeq_increasing (n : ℕ) : betaSeq n < betaSeq (n + 1) := by
  have h1 := (betaSeq_mem n).1
  have h2 := (betaSeq_mem n).2
  have hs2 := sqrt5_sq
  have hs := sqrt5_lt
  have hden : (0 : ℝ) < 1 - 1/3 * ((betaSeq n : ℚ) : ℝ) * (1/3) := by nlinarith
  have hL2 : ((9 - 3 * Real.sqrt 5) / 2) ^ 2 = 9 * ((9 - 3 * Real.sqrt 5) / 2) - 9 := by
    linear_combination (9/4 : ℝ) * hs2
  have hcast : ((betaSeq (n + 1) : ℚ) : ℝ)
      = 1 / (1 - 1/3 * ((betaSeq n : ℚ) : ℝ) * (1/3)) := by
    rw [show betaSeq (n + 1) = 1 / (1 - 1/3 * betaSeq n * (1/3)) from rfl]
    push_cast
    ring
  have : ((betaSeq n : ℚ) : ℝ) < ((betaSeq (n + 1) : ℚ) : ℝ) := by
    rw [hcast, lt_div_iff₀ hden]
    nlinarith [mul_pos (sub_pos.2 h2)
      (show (0:ℝ) < 9 - (9 - 3 * Real.sqrt 5) / 2 - ((betaSeq n : ℚ) : ℝ) by nlinarith)]
  exact_mod_cast this

/-- Claim C10: every `beta` value produced by `precompute_beta_gam` lies in
`[1, 2)`; more precisely the sequence starting at `beta = 1` under
`beta' = 1/(1 - (1/3)·beta·(1/3))` is increasing and bounded above by
`(9 - 3·√5)/2`, so the denominator `1 - (1/3)·beta·(1/3)` is strictly
positive at every step and the divisions in the pipeline recurrence never
divide by zero. -/
theorem beta_local_bounds (m : ℕ) (hm : 1 ≤ m) (k i : ℕ) :
    1 ≤ beta_local m k i ∧ beta_local m k i < 2 ∧
    ((beta_local m k i : ℚ) : ℝ) < (9 - 3 * Real.sqrt 5) / 2 ∧
    beta_local m k i < beta_local m k (i + 1) ∧
    0 < 1 - 1/3 * beta_local m k i * (1/3) := by
  rw [beta_local_eq m hm, beta_local_eq m hm k (i + 1),
    show k * m + (i + 1) = (k * m + i) + 1 by omega]
  refine ⟨?_, ?_, (betaSeq_mem _).2, betaSeq_increasing _, betaSeq_den_pos _⟩
  · exact_mod_cast (betaSeq_mem (k * m + i)).1
  · have h2 := (betaSeq_mem (k * m + i)).2
    have hs := sqrt5_lt
    have : ((betaSeq (k * m + i) : ℚ) : ℝ) < 2 := by nlinarith
    exact_mod_cast this

/-- Witness for C10 at `m = 1`, `k = 0`, `i = 0`. -/
theorem beta_local_bounds_witness :
    1 ≤ beta_local 1 0 0 ∧ beta_local 1 0 0 < 2 ∧
    ((beta_local 1 0 0 : ℚ) : ℝ) < (9 - 3 * Real.sqrt 5) / 2 ∧
    beta_local 1 0 0 < beta_local 1 0 1 ∧
    0 < 1 - 1/3 * beta_local 1 0 0 * (1/3) :=
  beta_local_bounds 1 (by norm_num) 0 0

/-! ## Loop accumulators versus closed forms -/

lemma prodLoop_eq_prod (g : ℕ → ℚ) (lo : ℕ) : ∀ n,
    prodLoop g lo n = (Finset.Ico lo (lo + n)).prod g
  | 0 => by simp [prodLoop]
  | n + 1 => by
    rw [prodLoop, prodLoop_eq_prod g lo n, show lo + (n + 1) = (lo + n) + 1 by omega,
      Finset.prod_Ico_succ_top (Nat.le_add_right lo n)]

lemma uTildaSum_eq (f g : ℕ → ℚ) (k : ℕ) : ∀ n, n ≤ k →
    uTildaSum f g k n = (Finset.range n).sum (fun i => f i * (Finset.Ico (i + 1) k).prod g)
  | 0, _ => by simp [uTildaSum]
  | n + 1, h => by
    rw [uTildaSum, uTildaSum_eq f g k n (by omega), Finset.sum_range_succ,
      prodLoop_eq_prod, show (n + 1) + (k - (n + 1)) = k by omega]

lemma uTildaCode_closed (f g : ℕ → ℚ) (a : ℚ) (k : ℕ) :
    uTildaCode f g a k =
      (Finset.range k).sum (fun i => f i * (Finset.Ico (i + 1) k).prod g) +
        a * (Finset.range k).prod g := by
  rw [uTildaCode, uTildaSum_eq f g k k le_rfl, prodLoop_eq_prod, Nat.zero_add,
    Finset.range_eq_Ico]

lemma uRec_closed (f g : ℕ → ℚ) (a : ℚ) : ∀ k, uRec f g a k =
    (Finset.range k).sum (fun i => f i * (Finset.Ico (i + 1) k).prod g) +
      a * (Finset.range k).prod g
  | 0 => by simp [uRec]
  | k + 1 => by
    have hsum : (Finset.range (k + 1)).sum (fun i => f i * (Finset.Ico (i + 1) (k + 1)).prod g)
        = (Finset.range k).sum (fun i => f i * (Finset.Ico (i + 1) k).prod g) * g k + f k := by
      rw [Finset.sum_range_succ]
      simp only [Finset.Ico_self, Finset.prod_empty, mul_one]
      congr 1
      rw [Finset.sum_mul]
      refine Finset.sum_congr rfl (fun i hi => ?_)
      rw [Finset.prod_Ico_succ_top (Nat.succ_le_of_lt (Finset.mem_range.mp hi)), mul_assoc]
    rw [uRec, uRec_closed f g a k, hsum, Finset.prod_range_succ]
    ring

lemma uTildaCode_eq_uRec (f g : ℕ → ℚ) (a : ℚ) (k : ℕ) :
    uTildaCode f g a k = uRec f g a k := by
  rw [uTildaCode_closed, uRec_closed]

/-! ## Forward sweep refines the sequential forward elimination -/

lemma seqU_affine (B R : ℕ → ℚ) (m : ℕ) (hm : 1 ≤ m) (k : ℕ) : ∀ i,
    seqU B R (k * m + i) =
      phiF (localBlock m B) (localBlock m R) k i +
        seqU B R (k * m - 1) * psiF (localBlock m B) k i
  | 0 => by
    rcases Nat.eq_zero_or_pos k with hk | hk
    · subst hk
      simp [Nat.zero_mul, phiF, psiF]
    · have h1 : 1 ≤ k * m := Nat.mul_pos hk hm
      have hk0 : k ≠ 0 := by omega
      rw [show k * m + 0 = (k * m - 1) + 1 by omega, seqU]
      simp only [phiF, psiF, if_neg hk0, localBlock]
      rw [show (k * m - 1) + 1 = k * m + 0 by omega]
      ring
  | i + 1 => by
    rw [show k * m + (i + 1) = (k * m + i) + 1 by omega, seqU,
      show (k * m + i) + 1 = k * m + (i + 1) by omega, seqU_affine B R m hm k i]
    simp only [phiF, psiF, localBlock]
    ring

lemma seqU_last (B R : ℕ → ℚ) (m : ℕ) (hm : 1 ≤ m) (k : ℕ) :
    seqU B R ((k + 1) * m - 1) =
      phiLasts m (localBlock m B) (localBlock m R) k +
        psiLasts m (localBlock m B) k * seqU B R (k * m - 1) := by
  have h := seqU_affine B R m hm k (m - 1)
  rw [show k * m + (m - 1) = (k + 1) * m - 1 by rw [Nat.succ_mul]; omega] at h
  rw [h, phiLasts, psiLasts]
  ring

lemma uRec_eq_seqU (B R : ℕ → ℚ) (m : ℕ) (hm : 1 ≤ m) : ∀ k,
    uRec (phiLasts m (localBlock m B) (localBlock m R)) (psiLasts m (localBlock m B))
      (uFirst (localBlock m B) (localBlock m R)) k = seqU B R (k * m - 1)
  | 0 => by
    simp [uRec, uFirst, localBlock, Nat.zero_mul, seqU]
  | k + 1 => by
    rw [uRec, uRec_eq_seqU B R m hm k, ← seqU_last B R m hm k]

lemma uTilda_eq_seqU (B R : ℕ → ℚ) (m : ℕ) (hm : 1 ≤ m) (k : ℕ) :
    uTilda m (localBlock m B) (localBlock m R) k = seqU B R (k * m - 1) := by
  rcases Nat.eq_zero_or_pos k with hk | hk
  · subst hk
    rw [uTilda, if_pos rfl, ← uRec_eq_seqU B R m hm 0, uRec]
  · rw [uTilda, if_neg (by omega), uTildaCode_eq_uRec, uRec_eq_seqU B R m hm]

lemma uLocal_eq_seqU (B R : ℕ → ℚ) (m : ℕ) (hm : 1 ≤ m) (k i : ℕ) :
    uLocal m (localBlock m B) (localBlock m R) k i = seqU B R (k * m + i) := by
  rw [uLocal, uTilda_eq_seqU B R m hm, seqU_affine B R m hm]

/-- Claim C5: in the forward local sweep, rank 0 seeds `phi_local[0] = 0` and
`psi_local[0] = 1`; every rank `k ≠ 0` seeds
`phi_local[0] = beta_local[0]·r_local[0]` and
`psi_local[0] = -(1/3)·beta_local[0]`; and every rank fills
`phi_local[i] = beta_local[i]·(r_local[i] - (1/3)·phi_local[i-1])` and
`psi_local[i] = -(1/3)·beta_local[i]·psi_local[i-1]` for the remaining local
indices. -/
theorem forward_local_sweep (betaL rL : ℕ → ℕ → ℚ) (k i : ℕ) :
    (phiF betaL rL 0 0 = 0 ∧ psiF betaL 0 0 = 1) ∧
    (k ≠ 0 → phiF betaL rL k 0 = betaL k 0 * rL k 0 ∧
      psiF betaL k 0 = -(1/3) * betaL k 0) ∧
    phiF betaL rL k (i + 1) = betaL k (i + 1) * (rL k (i + 1) - (1/3) * phiF betaL rL k i) ∧
    psiF betaL k (i + 1) = -(1/3) * betaL k (i + 1) * psiF betaL k i := by
  refine ⟨⟨rfl, rfl⟩, fun hk => ⟨?_, ?_⟩, rfl, rfl⟩ <;> simp [phiF, psiF, hk]

/-- Witness for C5: the non-zero-rank seed equations at rank 1 for concrete
constant inputs. -/
theorem forward_local_sweep_witness :
    phiF (fun _ _ => 2) (fun _ _ => 3) 1 0 =
      (fun _ _ => (2 : ℚ)) 1 0 * (fun _ _ => (3 : ℚ)) 1 0 ∧
    psiF (fun _ _ => 2) 1 0 = -(1/3) * (fun _ _ => (2 : ℚ)) 1 0 :=
  (forward_local_sweep (fun _ _ => 2) (fun _ _ => 3) 1 0).2.1 (by norm_num)

/-- Claim C6: for every rank `k > 0` and all gathered vectors `f = phi_lasts`,
`g = psi_lasts` and anchor `a = u_first`, the value `u_tilda` computed by the
FORWARD_RESOLVE loops equals the sum over `i < k` of `phi_lasts[i]` times the
product of `psi_lasts[j]` for `j` in `(i, k)`, plus `u_first` times the
product of `psi_lasts[i]` for `i` in `[0, k)`; and this equals `u_k`, the
`k`-th term of the recurrence `u_j = phi_lasts[j-1] + psi_lasts[j-1]·u_{j-1}`
unrolled from `u_0 = u_first`. -/
theorem forward_resolve_closed_form (f g : ℕ → ℚ) (a : ℚ) (k : ℕ) (_hk : 0 < k) :
    uTildaCode f g a k =
      (Finset.range k).sum (fun i => f i * (Finset.Ico (i + 1) k).prod g) +
        a * (Finset.range k).prod g ∧
    uTildaCode f g a k = uRec f g a k :=
  ⟨uTildaCode_closed f g a k, uTildaCode_eq_uRec f g a k⟩

/-- Witness for C6 at `k = 2` with concrete vectors. -/
theorem forward_resolve_closed_form_witness :
    uTildaCode (fun i => (i : ℚ)) (fun i => (i : ℚ) + 1) 5 2 =
      (Finset.range 2).sum
        (fun i => (i : ℚ) * (Finset.Ico (i + 1) 2).prod (fun j => (j : ℚ) + 1)) +
        5 * (Finset.range 2).prod (fun i => (i : ℚ) + 1) ∧
    uTildaCode (fun i => (i : ℚ)) (fun i => (i : ℚ) + 1) 5 2 =
      uRec (fun i => (i : ℚ)) (fun i => (i : ℚ) + 1) 5 2 :=
  forward_resolve_closed_form (fun i => (i : ℚ)) (fun i => (i : ℚ) + 1) 5 2 (by norm_num)

/-- Counterexample to claim C4: at `N = 2`, `P = 2` (`m = 1`) with
coefficients from `precompute_beta_gam` and right-hand side all ones, rank
0's `u_tilda` is `beta_local[0]·r_local[0] = 1`, not `0` (the code sets it at
line 73), and the FORWARD_COMBINE value `u_local[0]` differs from
`phi_local[0]`. -/
theorem rank0_uTilda_counterexample :
    uTilda 1 (beta_local 1) (localBlock 1 (fun _ => 1)) 0 ≠ 0 ∧
    uLocal 1 (beta_local 1) (localBlock 1 (fun _ => 1)) 0 0 ≠
      phiF (beta_local 1) (localBlock 1 (fun _ => 1)) 0 0 := by
  constructor <;>
    norm_num [uTilda, uFirst, uLocal, phiF, psiF, beta_local, betaIter, rankSeed, localBlock]

/-- Claim C4 (amended): on worker rank 0 the forward coupling scalar
`u_tilda` is not computed by the reduced-system loops; it is set directly to
`u_local[0] = beta_local[0]·r_local[0]`, which is the broadcast anchor
`u_first`, so the FORWARD_COMBINE step on rank 0 computes
`u_local[i] = phi_local[i] + u_first·psi_local[i]` for every local index. -/
theorem rank0_uTilda_is_uFirst (m : ℕ) (betaL rL : ℕ → ℕ → ℚ) (i : ℕ) :
    uTilda m betaL rL 0 = uFirst betaL rL ∧
    uLocal m betaL rL 0 i = phiF betaL rL 0 i + uFirst betaL rL * psiF betaL 0 i := by
  constructor
  · rw [uTilda, if_pos rfl]
  · rw [uLocal, uTilda, if_pos rfl]

/-! ## Backward resolve: loop accumulators versus closed forms -/

lemma xTildaSum_eq (f g : ℕ → ℚ) (k : ℕ) : ∀ n,
    xTildaSum f g k n = (Finset.Ico (k + 2) (k + 2 + n)).sum
      (fun i => f i * (Finset.Ico (k + 1) i).prod g)
  | 0 => by simp [xTildaSum]
  | n + 1 => by
    rw [xTildaSum, xTildaSum_eq f g k n, show k + 2 + (n + 1) = (k + 2 + n) + 1 by omega,
      Finset.sum_Ico_succ_top (Nat.le_add_right (k + 2) n), prodLoop_eq_prod,
      show (k + 1) + (n + 1) = k + 2 + n by omega]

lemma xTildaCode_closed (f g : ℕ → ℚ) (xl : ℚ) (P k : ℕ) (hk : k + 1 ≤ P) :
    xTildaCode f g xl P k =
      (Finset.Ico (k + 2) P).sum (fun i => f i * (Finset.Ico (k + 1) i).prod g) +
        f (k + 1) + xl * (Finset.Ico (k + 1) P).prod g := by
  rw [xTildaCode, xTildaSum_eq, prodLoop_eq_prod,
    show (k + 1) + (P - (k + 1)) = P by omega]
  rcases Nat.lt_or_ge (k + 1) P with h | h
  · rw [show k + 2 + (P - (k + 2)) = P by omega]
  · have hPk : P = k + 1 := by omega
    subst hPk
    rw [show k + 1 - (k + 2) = 0 by omega]
    rw [Finset.Ico_eq_empty (by omega), Finset.Ico_eq_empty (by omega)]
    simp

lemma closedB_top (f g : ℕ → ℚ) (xl : ℚ) (P : ℕ) : closedB f g xl P P = xl := by
  simp [closedB]

lemma closedB_rec (f g : ℕ → ℚ) (xl : ℚ) (P j : ℕ) (hj : j < P) :
    closedB f g xl P j = f j + g j * closedB f g xl P (j + 1) := by
  have hterm : ∀ i ∈ Finset.Ico (j + 1) P, f i * (Finset.Ico j i).prod g
      = g j * (f i * (Finset.Ico (j + 1) i).prod g) := fun i hi => by
    rw [Finset.prod_eq_prod_Ico_succ_bot (Finset.mem_Ico.mp hi).1 g]
    ring
  rw [closedB, closedB, Finset.sum_eq_sum_Ico_succ_bot hj,
    Finset.prod_eq_prod_Ico_succ_bot hj, Finset.Ico_self, Finset.prod_empty, mul_one,
    Finset.sum_congr rfl hterm, ← Finset.mul_sum]
  ring

lemma xTildaCode_eq_closedB (f g : ℕ → ℚ) (xl : ℚ) (P k : ℕ) (hk : k + 1 < P) :
    xTildaCode f g xl P k = closedB f g xl P (k + 1) := by
  rw [xTildaCode_closed f g xl P k (by omega), closedB,
    Finset.sum_eq_sum_Ico_succ_bot hk, Finset.Ico_self, Finset.prod_empty, mul_one]
  ring

/-! ## Backward sweep refines the sequential back substitution -/

lemma seqX_affine (B G R : ℕ → ℚ) (P m : ℕ) (hm : 1 ≤ m) (k : ℕ)
    (hk : k < P) : ∀ d, d ≤ m - 1 →
    seqXAux B G R (P * m) ((P - 1 - k) * m + d) =
      phiB P m (localBlock m B) (localBlock m G) (localBlock m R) k d +
        seqXAux B G R (P * m) ((P - 1 - k) * m - 1) *
          psiB P m (localBlock m G) k d
  | 0, _ => by
    rcases Nat.eq_or_lt_of_le (Nat.succ_le_of_lt hk) with h | h
    · have hk1 : k = P - 1 := by omega
      have h0 : P - 1 - k = 0 := by omega
      rw [h0, Nat.zero_mul]
      simp only [phiB, psiB, if_pos hk1]
      rw [show (0 : ℕ) - 1 = 0 by omega]
      ring
    · have h1 : 1 ≤ (P - 1 - k) * m := Nat.mul_pos (by omega) hm
      have hsplit : P * m = (P - 1 - k) * m + (k + 1) * m := by
        rw [← Nat.add_mul]
        congr 1
        omega
      have hkm2 : (k + 1) * m = k * m + m := Nat.succ_mul k m
      have hgam : P * m - ((P - 1 - k) * m - 1 + 1) = (k + 1) * m := by omega
      have hu : P * m - 1 - ((P - 1 - k) * m - 1 + 1) = k * m + (m - 1) := by omega
      rw [show (P - 1 - k) * m + 0 = ((P - 1 - k) * m - 1) + 1 by omega, seqXAux, hgam, hu]
      have hne : k ≠ P - 1 := by omega
      simp only [phiB, psiB, if_neg hne]
      rw [uLocal_eq_seqU B R m hm, gamFirsts, localBlock,
        show (k + 1) * m + 0 = (k + 1) * m by omega]
      ring
  | d + 1, hd => by
    have hsplit : P * m = (P - 1 - k) * m + (k + 1) * m := by
      rw [← Nat.add_mul]
      congr 1
      omega
    have hkm2 : (k + 1) * m = k * m + m := Nat.succ_mul k m
    have h2 : P * m - 1 - ((P - 1 - k) * m + d + 1) = k * m + (m - 1 - (d + 1)) := by omega
    have h3 : P * m - ((P - 1 - k) * m + d + 1) = k * m + (m - (d + 1)) := by omega
    rw [show (P - 1 - k) * m + (d + 1) = ((P - 1 - k) * m + d) + 1 by omega, seqXAux, h2, h3,
      seqX_affine B G R P m hm k hk d (by omega)]
    simp only [phiB, psiB]
    rw [uLocal_eq_seqU B R m hm, localBlock]
    ring

lemma closedB_eq_seqXAux (B G R : ℕ → ℚ) (P m : ℕ) (hm : 1 ≤ m) (hP : 1 ≤ P) :
    ∀ t j, P - j = t → j ≤ P →
    closedB (phiFirsts P m (localBlock m B) (localBlock m G) (localBlock m R))
      (psiFirsts P m (localBlock m G))
      (xLast P m (localBlock m B) (localBlock m R)) P j
      = seqXAux B G R (P * m) ((P - j) * m - 1)
  | 0, j, ht, hj => by
    have hjP : P = j := by omega
    subst hjP
    rw [closedB_top, xLast, uLocal_eq_seqU B R m hm, Nat.sub_self, Nat.zero_mul,
      show (0 : ℕ) - 1 = 0 by omega, seqXAux]
    congr 1
    have h1 : (P - 1) * m + m = P * m := by
      rw [← Nat.succ_mul, Nat.succ_eq_add_one, show P - 1 + 1 = P by omega]
    omega
  | t + 1, j, ht, hj => by
    have hjP : j < P := by omega
    have haff := seqX_affine B G R P m hm j hjP (m - 1) le_rfl
    have h1 : (P - 1 - j) * m + (m - 1) = (P - j) * m - 1 := by
      have h2 : (P - 1 - j) * m + m = (P - j) * m := by
        rw [← Nat.succ_mul, Nat.succ_eq_add_one, show P - 1 - j + 1 = P - j by omega]
      omega
    rw [closedB_rec _ _ _ _ _ hjP,
      closedB_eq_seqXAux B G R P m hm hP t (j + 1) (by omega) (by omega),
      phiFirsts, psiFirsts, show P - (j + 1) = P - 1 - j by omega]
    rw [h1] at haff
    linear_combination -haff

lemma xTilda_eq_seqXAux (B G R : ℕ → ℚ) (P m : ℕ) (hm : 1 ≤ m) (hP : 1 ≤ P) (k : ℕ)
    (hk : k < P) :
    xTilda P m (localBlock m B) (localBlock m G) (localBlock m R) k =
      seqXAux B G R (P * m) ((P - 1 - k) * m - 1) := by
  rcases Nat.eq_or_lt_of_le (Nat.succ_le_of_lt hk) with h | h
  · rw [xTilda, if_pos (by omega), xLast, uLocal_eq_seqU B R m hm,
      show P - 1 - k = 0 by omega, Nat.zero_mul, show (0 : ℕ) - 1 = 0 by omega, seqXAux]
    congr 1
    have h1 : (P - 1) * m + m = P * m := by
      rw [← Nat.succ_mul, Nat.succ_eq_add_one, show P - 1 + 1 = P by omega]
    omega
  · rw [xTilda, if_neg (by omega), xTildaCode_eq_closedB _ _ _ _ _ h,
      closedB_eq_seqXAux B G R P m hm hP (P - (k + 1)) (k + 1) rfl (by omega),
      show P - (k + 1) = P - 1 - k by omega]

lemma xLocal_eq_seqXAux (B G R : ℕ → ℚ) (P m : ℕ) (hm : 1 ≤ m) (hP : 1 ≤ P) (k i : ℕ)
    (hk : k < P) (hi : i < m) :
    xLocal P m (localBlock m B) (localBlock m G) (localBlock m R) k i =
      seqXAux B G R (P * m) (P * m - 1 - (k * m + i)) := by
  rw [xLocal, xTilda_eq_seqXAux B G R P m hm hP k hk,
    ← seqX_affine B G R P m hm k hk (m - 1 - i) (by omega)]
  congr 1
  have h2 : (P - 1 - k) * m + (k + 1) * m = P * m := by
    rw [← Nat.add_mul]
    congr 1
    omega
  have h3 : (k + 1) * m = k * m + m := Nat.succ_mul k m
  omega

/-! ## The sequential elimination is the Thomas algorithm -/

lemma cprime_eq : ∀ i, cprime i = (1/3) * betaSeq i
  | 0 => by norm_num [cprime, betaSeq]
  | i + 1 => by
    rw [show cprime (i + 1) = (1/3) / (1 - (1/3) * cprime i) from rfl, cprime_eq i,
      show betaSeq (i + 1) = 1 / (1 - (1/3) * betaSeq i * (1/3)) from rfl]
    ring

lemma dprime_eq (r : ℕ → ℚ) : ∀ i, dprime r i = seqU betaSeq r i
  | 0 => by simp [dprime, seqU, betaSeq]
  | i + 1 => by
    rw [show dprime r (i + 1) = (r (i + 1) - (1/3) * dprime r i) / (1 - (1/3) * cprime i)
        from rfl,
      dprime_eq r i, cprime_eq,
      show seqU betaSeq r (i + 1) = betaSeq (i + 1) * (r (i + 1) - (1/3) * seqU betaSeq r i)
        from rfl,
      show betaSeq (i + 1) = 1 / (1 - (1/3) * betaSeq i * (1/3)) from rfl]
    ring

lemma thomasXAux_eq (r : ℕ → ℚ) (N : ℕ) : ∀ d, d < N →
    thomasXAux r N d = seqXAux betaSeq gamSeq r N d
  | 0, _ => by rw [thomasXAux, seqXAux, dprime_eq]
  | d + 1, h => by
    have hcg : cprime (N - 1 - (d + 1)) = gamSeq (N - (d + 1)) := by
      rw [show N - (d + 1) = (N - 1 - (d + 1)) + 1 by omega,
        show gamSeq ((N - 1 - (d + 1)) + 1) = betaSeq (N - 1 - (d + 1)) * (1/3) from rfl,
        cprime_eq]
      ring
    rw [thomasXAux, seqXAux, dprime_eq, thomasXAux_eq r N d (by omega), hcg]

/-- Claim C7: in the backward local sweep the last worker (rank `P-1`) seeds
`phi_local[m-1] = 0` and `psi_local[m-1] = 1`; every other worker seeds
`phi_local[m-1] = u_local[m-1]` and `psi_local[m-1] = -gam_firsts[rank+1]`,
where `gam_firsts` gathers each worker's first `gam` value; and for every
local index `i` from `m-2` down to `0` every worker computes
`phi_local[i] = u_local[i] - gam_local[i+1]·phi_local[i+1]` and
`psi_local[i] = -gam_local[i+1]·psi_local[i+1]`.  (`phiB ... k d` is
`phi_local[m-1-d]`, so local index `i` is distance `m-1-i`.) -/
theorem backward_local_sweep (P m : ℕ) (betaL gamL rL : ℕ → ℕ → ℚ) (k i : ℕ)
    (hi : i + 1 ≤ m - 1) :
    (phiB P m betaL gamL rL (P - 1) 0 = 0 ∧ psiB P m gamL (P - 1) 0 = 1) ∧
    (k ≠ P - 1 →
      phiB P m betaL gamL rL k 0 = uLocal m betaL rL k (m - 1) ∧
      psiB P m gamL k 0 = -gamFirsts gamL (k + 1)) ∧
    (phiB P m betaL gamL rL k (m - 1 - i) =
        uLocal m betaL rL k i -
          gamL k (i + 1) * phiB P m betaL gamL rL k (m - 1 - (i + 1)) ∧
      psiB P m gamL k (m - 1 - i) =
        -gamL k (i + 1) * psiB P m gamL k (m - 1 - (i + 1))) := by
  refine ⟨⟨by simp [phiB], by simp [psiB]⟩, fun hk => ⟨by simp [phiB, hk], by simp [psiB, hk]⟩,
    ?_, ?_⟩
  · rw [show m - 1 - i = (m - 1 - (i + 1)) + 1 by omega, phiB,
      show m - 1 - ((m - 1 - (i + 1)) + 1) = i by omega,
      show m - ((m - 1 - (i + 1)) + 1) = i + 1 by omega]
  · rw [show m - 1 - i = (m - 1 - (i + 1)) + 1 by omega, psiB,
      show m - ((m - 1 - (i + 1)) + 1) = i + 1 by omega]

/-- Witness for C7 at `P = 2`, `m = 3`, `k = 1`, `i = 0` with concrete inputs. -/
theorem backward_local_sweep_witness :
    (phiB 2 3 (fun _ _ => 2) (fun _ _ => 5) (fun _ _ => 3) (2 - 1) 0 = 0 ∧
      psiB 2 3 (fun _ _ => 5) (2 - 1) 0 = 1) ∧
    ((1 : ℕ) ≠ 2 - 1 →
      phiB 2 3 (fun _ _ => 2) (fun _ _ => 5) (fun _ _ => 3) 1 0 =
        uLocal 3 (fun _ _ => 2) (fun _ _ => 3) 1 (3 - 1) ∧
      psiB 2 3 (fun _ _ => 5) 1 0 = -gamFirsts (fun _ _ => 5) (1 + 1)) ∧
    (phiB 2 3 (fun _ _ => 2) (fun _ _ => 5) (fun _ _ => 3) 1 (3 - 1 - 0) =
        uLocal 3 (fun _ _ => 2) (fun _ _ => 3) 1 0 -
          (fun _ _ => (5 : ℚ)) 1 (0 + 1) *
            phiB 2 3 (fun _ _ => 2) (fun _ _ => 5) (fun _ _ => 3) 1 (3 - 1 - (0 + 1)) ∧
      psiB 2 3 (fun _ _ => 5) 1 (3 - 1 - 0) =
        -(fun _ _ => (5 : ℚ)) 1 (0 + 1) * psiB 2 3 (fun _ _ => 5) 1 (3 - 1 - (0 + 1))) :=
  backward_local_sweep 2 3 (fun _ _ => 2) (fun _ _ => 5) (fun _ _ => 3) 1 0 (by norm_num)

/-- Claim C8: for every worker rank `k < P-1`, the coupling scalar `x_tilda`
computed in BACKWARD_RESOLVE equals the sum, over ranks `j` from `k+2` to
`P-1`, of `phi_firsts[j]` times the product of `psi_firsts[l]` for `l` in
`[k+1, j)`, plus `phi_firsts[k+1]`, plus `x_last` times the product of
`psi_firsts[j]` for `j` in `[k+1, P)`; and BACKWARD_COMBINE sets
`x_local[i] = phi_local[i] + x_tilda·psi_local[i]` for every local index. -/
theorem backward_resolve_and_combine (P m : ℕ) (betaL gamL rL : ℕ → ℕ → ℚ) (k i : ℕ)
    (hk : k + 1 < P) :
    xTilda P m betaL gamL rL k =
      (Finset.Ico (k + 2) P).sum (fun j => phiFirsts P m betaL gamL rL j *
        (Finset.Ico (k + 1) j).prod (psiFirsts P m gamL)) +
      phiFirsts P m betaL gamL rL (k + 1) +
      xLast P m betaL rL * (Finset.Ico (k + 1) P).prod (psiFirsts P m gamL) ∧
    xLocal P m betaL gamL rL k i =
      phiB P m betaL gamL rL k (m - 1 - i) +
        xTilda P m betaL gamL rL k * psiB P m gamL k (m - 1 - i) := by
  constructor
  · rw [xTilda, if_neg (by omega), xTildaCode_closed _ _ _ _ _ (by omega)]
  · rfl

/-- Witness for C8 at `P = 3`, `m = 1`, `k = 0`, `i = 0`. -/
theorem backward_resolve_and_combine_witness :
    xTilda 3 1 (beta_local 1) (gam_local 1) (localBlock 1 (fun _ => 1)) 0 =
      (Finset.Ico (0 + 2) 3).sum
        (fun j => phiFirsts 3 1 (beta_local 1) (gam_local 1) (localBlock 1 (fun _ => 1)) j *
          (Finset.Ico (0 + 1) j).prod (psiFirsts 3 1 (gam_local 1))) +
      phiFirsts 3 1 (beta_local 1) (gam_local 1) (localBlock 1 (fun _ => 1)) (0 + 1) +
      xLast 3 1 (beta_local 1) (localBlock 1 (fun _ => 1)) *
        (Finset.Ico (0 + 1) 3).prod (psiFirsts 3 1 (gam_local 1)) ∧
    xLocal 3 1 (beta_local 1) (gam_local 1) (localBlock 1 (fun _ => 1)) 0 0 =
      phiB 3 1 (beta_local 1) (gam_local 1) (localBlock 1 (fun _ => 1)) 0 (1 - 1 - 0) +
        xTilda 3 1 (beta_local 1) (gam_local 1) (localBlock 1 (fun _ => 1)) 0 *
          psiB 3 1 (gam_local 1) 0 (1 - 1 - 0) :=
  backward_resolve_and_combine 3 1 (beta_local 1) (gam_local 1)
    (localBlock 1 (fun _ => 1)) 0 0 (by norm_num)

/-- Claim C3: whenever `system_size` is not an exact multiple of the worker
count, `nonperiodic_tridiagonal_solver` returns with the output buffer
`x_local` completely unmodified: every entry retains its prior value and no
partial output is produced. -/
theorem solver_rejects_indivisible (P N : ℕ) (betaL gamL rL xPrior : ℕ → ℕ → ℚ)
    (k i : ℕ) (h : N % P ≠ 0) :
    nonperiodic_tridiagonal_solver P N betaL gamL rL xPrior k i = xPrior k i := by
  rw [nonperiodic_tridiagonal_solver, if_pos h]

/-- Witness for C3 at `P = 2`, `N = 3` with a sentinel pre-fill of `5`. -/
theorem solver_rejects_indivisible_witness :
    nonperiodic_tridiagonal_solver 2 3 (beta_local 1) (gam_local 1)
      (localBlock 1 (fun _ => 1)) (fun _ _ => 5) 0 0 = (fun _ _ => (5 : ℚ)) 0 0 :=
  solver_rejects_indivisible 2 3 (beta_local 1) (gam_local 1)
    (localBlock 1 (fun _ => 1)) (fun _ _ => 5) 0 0 (by norm_num)

lemma solver_eq_thomas (P m : ℕ) (hP : 1 ≤ P) (hm : 1 ≤ m) (r : ℕ → ℚ)
    (xPrior : ℕ → ℕ → ℚ) (k i : ℕ) (hk : k < P) (hi : i < m) :
    nonperiodic_tridiagonal_solver P (P * m) (beta_local m) (gam_local m)
      (localBlock m r) xPrior k i = thomasX r (P * m) (k * m + i) := by
  have hmod : P * m % P = 0 := Nat.mul_mod_right P m
  have hdiv : P * m / P = m := Nat.mul_div_cancel_left m (by omega)
  have hN1 : 1 ≤ P * m := Nat.mul_pos (by omega) hm
  have hkm : k * m + m ≤ P * m := by
    calc k * m + m = (k + 1) * m := (Nat.succ_mul k m).symm
    _ ≤ P * m := Nat.mul_le_mul_right m (by omega)
  rw [nonperiodic_tridiagonal_solver, if_neg (by simp [hmod]), hdiv,
    beta_local_block m hm, gam_local_block m hm,
    xLocal_eq_seqXAux betaSeq gamSeq r P m hm hP k i hk hi, thomasX,
    thomasXAux_eq r (P * m) (P * m - 1 - (k * m + i)) (by omega)]

/-- Claim C1: for every system size `N = P*m` with `P` dividing `N`, and
every right-hand side `r`, running `precompute_beta_gam` followed by
`nonperiodic_tridiagonal_solver` on all `P` workers produces a solution `x`
equal in exact arithmetic to the solution obtained by direct sequential
Thomas-algorithm elimination of the full `N×N` tridiagonal system with unit
diagonal and off-diagonal weight `1/3`; in particular the concatenated
result is the same for every partition `P2*m2 = N`: the algorithm is a
reformulation, not an approximation. -/
theorem solver_refines_thomas (P m : ℕ) (hP : 1 ≤ P) (hm : 1 ≤ m) (r : ℕ → ℚ)
    (xPrior xPrior2 : ℕ → ℕ → ℚ) (k i P2 m2 k2 i2 : ℕ) (hk : k < P) (hi : i < m)
    (hP2 : 1 ≤ P2) (hm2 : 1 ≤ m2) (hN : P2 * m2 = P * m) (hk2 : k2 < P2) (hi2 : i2 < m2)
    (hg : k2 * m2 + i2 = k * m + i) :
    nonperiodic_tridiagonal_solver P (P * m) (beta_local m) (gam_local m)
        (localBlock m r) xPrior k i = thomasX r (P * m) (k * m + i) ∧
    nonperiodic_tridiagonal_solver P2 (P2 * m2) (beta_local m2) (gam_local m2)
        (localBlock m2 r) xPrior2 k2 i2 =
      nonperiodic_tridiagonal_solver P (P * m) (beta_local m) (gam_local m)
        (localBlock m r) xPrior k i := by
  refine ⟨solver_eq_thomas P m hP hm r xPrior k i hk hi, ?_⟩
  rw [solver_eq_thomas P m hP hm r xPrior k i hk hi,
    solver_eq_thomas P2 m2 hP2 hm2 r xPrior2 k2 i2 hk2 hi2, hN, hg]

/-- Witness for C1: `N = 4` solved with `P = 2` matches the Thomas solution,
and the `P = 4` partition agrees at the same global index. -/
theorem solver_refines_thomas_witness :
    nonperiodic_tridiagonal_solver 2 (2 * 2) (beta_local 2) (gam_local 2)
        (localBlock 2 (fun _ => 1)) (fun _ _ => 0) 1 1 =
      thomasX (fun _ => 1) (2 * 2) (1 * 2 + 1) ∧
    nonperiodic_tridiagonal_solver 4 (4 * 1) (beta_local 1) (gam_local 1)
        (localBlock 1 (fun _ => 1)) (fun _ _ => 3) 3 0 =
      nonperiodic_tridiagonal_solver 2 (2 * 2) (beta_local 2) (gam_local 2)
        (localBlock 2 (fun _ => 1)) (fun _ _ => 0) 1 1 :=
  solver_refines_thomas 2 2 (by norm_num) (by norm_num) (fun _ => 1) (fun _ _ => 0)
    (fun _ _ => 3) 1 1 4 1 3 0 (by norm_num) (by norm_num) (by norm_num) (by norm_num)
    (by norm_num) (by norm_num) (by norm_num) (by norm_num)

set_option maxHeartbeats 2000000 in
/-- Claim C9: for the concrete instance `N = 4`, `w = 1/3`, `r = [1,1,1,1]`
with matrix rows `[1,w,0,0; w,1,w,0; 0,w,1,w; 0,0,w,1]`, the
pipeline-plus-solver combination produces `x = (9/11, 6/11, 6/11, 9/11)` for
worker counts `P = 1`, `P = 2` and `P = 4`; this vector satisfies the four
equations of the system and is its unique solution (direct Gaussian
elimination). -/
theorem example_scenario_N4 :
    (nonperiodic_tridiagonal_solver 1 4 (beta_local 4) (gam_local 4)
        (localBlock 4 (fun _ => 1)) (fun _ _ => 0) 0 0 = 9/11 ∧
      nonperiodic_tridiagonal_solver 1 4 (beta_local 4) (gam_local 4)
        (localBlock 4 (fun _ => 1)) (fun _ _ => 0) 0 1 = 6/11 ∧
      nonperiodic_tridiagonal_solver 1 4 (beta_local 4) (gam_local 4)
        (localBlock 4 (fun _ => 1)) (fun _ _ => 0) 0 2 = 6/11 ∧
      nonperiodic_tridiagonal_solver 1 4 (beta_local 4) (gam_local 4)
        (localBlock 4 (fun _ => 1)) (fun _ _ => 0) 0 3 = 9/11) ∧
    (nonperiodic_tridiagonal_solver 2 4 (beta_local 2) (gam_local 2)
        (localBlock 2 (fun _ => 1)) (fun _ _ => 0) 0 0 = 9/11 ∧
      nonperiodic_tridiagonal_solver 2 4 (beta_local 2) (gam_local 2)
        (localBlock 2 (fun _ => 1)) (fun _ _ => 0) 0 1 = 6/11 ∧
      nonperiodic_tridiagonal_solver 2 4 (beta_local 2) (gam_local 2)
        (localBlock 2 (fun _ => 1)) (fun _ _ => 0) 1 0 = 6/11 ∧
      nonperiodic_tridiagonal_solver 2 4 (beta_local 2) (gam_local 2)
        (localBlock 2 (fun _ => 1)) (fun _ _ => 0) 1 1 = 9/11) ∧
    (nonperiodic_tridiagonal_solver 4 4 (beta_local 1) (gam_local 1)
        (localBlock 1 (fun _ => 1)) (fun _ _ => 0) 0 0 = 9/11 ∧
      nonperiodic_tridiagonal_solver 4 4 (beta_local 1) (gam_local 1)
        (localBlock 1 (fun _ => 1)) (fun _ _ => 0) 1 0 = 6/11 ∧
      nonperiodic_tridiagonal_solver 4 4 (beta_local 1) (gam_local 1)
        (localBlock 1 (fun _ => 1)) (fun _ _ => 0) 2 0 = 6/11 ∧
      nonperiodic_tridiagonal_solver 4 4 (beta_local 1) (gam_local 1)
        (localBlock 1 (fun _ => 1)) (fun _ _ => 0) 3 0 = 9/11) ∧
    ((9 : ℚ)/11 + (1/3) * (6/11) = 1 ∧
      (1/3) * ((9 : ℚ)/11) + 6/11 + (1/3) * (6/11) = 1 ∧
      (1/3) * ((6 : ℚ)/11) + 6/11 + (1/3) * (9/11) = 1 ∧
      (1/3) * ((6 : ℚ)/11) + 9/11 = 1) ∧
    (∀ y0 y1 y2 y3 : ℚ, y0 + (1/3) * y1 = 1 → (1/3) * y0 + y1 + (1/3) * y2 = 1 →
      (1/3) * y1 + y2 + (1/3) * y3 = 1 → (1/3) * y2 + y3 = 1 →
      y0 = 9/11 ∧ y1 = 6/11 ∧ y2 = 6/11 ∧ y3 = 9/11) := by
  refine ⟨⟨?_, ?_, ?_, ?_⟩, ⟨?_, ?_, ?_, ?_⟩, ⟨?_, ?_, ?_, ?_⟩, by norm_num,
    fun y0 y1 y2 y3 h1 h2 h3 h4 =>
      ⟨by linarith, by linarith, by linarith, by linarith⟩⟩ <;>
    norm_num [nonperiodic_tridiagonal_solver, xLocal, phiB, psiB, xTilda, xTildaCode,
      xTildaSum, xLast, uLocal, uTilda, uTildaCode, uTildaSum, uFirst, phiF, psiF,
      phiLasts, psiLasts, phiFirsts, psiFirsts, gamFirsts, prodLoop, beta_local,
      gam_local, betaIter, rankSeed, betaStep, localBlock]

/-- Witness for C9: the uniqueness clause applied at the solution vector. -/
theorem example_scenario_N4_witness :
    (9 : ℚ)/11 = 9/11 ∧ (6 : ℚ)/11 = 6/11 ∧ (6 : ℚ)/11 = 6/11 ∧ (9 : ℚ)/11 = 9/11 :=
  example_scenario_N4.2.2.2.2 (9/11) (6/11) (6/11) (9/11)
    (by norm_num) (by norm_num) (by norm_num) (by norm_num)

end NPTS
